import Mathlib

/-!
Verification of the `mvt` Mapbox-Vector-Tile encoder (`mvt.go`).

The Go source is shallowly embedded here:

* byte buffers (`[]byte`) are `List Nat`, each entry a byte value;
* Go strings are modelled by their byte sequences (`List Nat`);
* `uint64` / `int64` are `Nat` / `Int`, with reductions modulo `2 ^ 64`
  made explicit exactly where the Go code truncates;
* `float64` pixel coordinates are modelled by exact rationals `ℚ`
  (the encoder only multiplies, divides and truncates them), and the
  IEEE-754 payloads of `float32` / `float64` tag values are modelled by
  their raw bit patterns, since `encodeValue` only reinterprets bits;
* functions that can panic (out-of-range indexing into the shared
  tag-index stream) return `Option`.

Recursions that the Go code performs with loops are written with an
explicit fuel argument (the fuel is always at least the loop bound, as
proved by the unfolding lemmas below) so that every definition reduces
inside the kernel.
-/

namespace MVT

/-! ## Primitive codec: `appendUvarint`, `appendVarint` (mvt.go lines 331-340)

`binary.PutUvarint` emits base-128 little-endian groups with the
continuation bit set on all but the last byte.  `putUvarintAux` is the
loop with fuel; `putUvarint n` runs it with fuel `n`, which the lemma
`putUvarint_eq` shows is always enough. -/

def putUvarintAux : Nat → Nat → List Nat
  | 0, n => [n]
  | fuel + 1, n =>
    if n < 128 then [n]
    else (n % 128 + 128) :: putUvarintAux fuel (n / 128)

/-- The bytes `binary.PutUvarint` writes for `n`. -/
def putUvarint (n : Nat) : List Nat := putUvarintAux n n

theorem putUvarintAux_congr :
    ∀ fuel₁ fuel₂ n, n ≤ fuel₁ → n ≤ fuel₂ →
      putUvarintAux fuel₁ n = putUvarintAux fuel₂ n := by
  intro fuel₁
  induction fuel₁ with
  | zero =>
    intro fuel₂ n h1 _
    interval_cases n
    cases fuel₂ <;> simp [putUvarintAux]
  | succ f ih =>
    intro fuel₂ n h1 h2
    cases fuel₂ with
    | zero =>
      interval_cases n
      simp [putUvarintAux]
    | succ f₂ =>
      simp only [putUvarintAux]
      split
      · rfl
      · have hlt : n / 128 < n := Nat.div_lt_self (by omega) (by omega)
        have hd : n / 128 ≤ f := by omega
        have hd₂ : n / 128 ≤ f₂ := by omega
        rw [ih _ _ hd hd₂]

/-- The defining equation of the `PutUvarint` loop, fuel eliminated. -/
theorem putUvarint_eq (n : Nat) :
    putUvarint n = if n < 128 then [n] else (n % 128 + 128) :: putUvarint (n / 128) := by
  unfold putUvarint
  cases n with
  | zero => simp [putUvarintAux]
  | succ m =>
    simp only [putUvarintAux]
    split
    · rfl
    · have hlt : (m + 1) / 128 < m + 1 := Nat.div_lt_self (by omega) (by omega)
      have hd : (m + 1) / 128 ≤ m := by omega
      rw [putUvarintAux_congr m ((m + 1) / 128) ((m + 1) / 128) hd (Nat.le_refl _)]

/-- Go `uint64(x)` on an `int64` value: reduce into `[0, 2^64)`. -/
def uint64Cast (x : Int) : Nat := (x % (2 ^ 64 : Int)).toNat

/-- The zigzag mapping performed by `binary.PutVarint`:
`ux := uint64(x) << 1; if x < 0 { ux = ^ux }` (64-bit complement). -/
def zigzag64 (x : Int) : Nat :=
  let ux := (uint64Cast x * 2) % 2 ^ 64
  if x < 0 then 2 ^ 64 - 1 - ux else ux

/-- Go `appendUvarint` (mvt.go line 331): append the varint encoding of `n`. -/
def appendUvarint (pb : List Nat) (n : Nat) : List Nat := pb ++ putUvarint n

/-- Go `appendVarint` (mvt.go line 336): zigzag, then unsigned varint. -/
def appendVarint (pb : List Nat) (n : Int) : List Nat := appendUvarint pb (zigzag64 n)

/-- Go `appendString` (mvt.go line 327): length prefix, then the raw bytes. -/
def appendString (pb : List Nat) (s : List Nat) : List Nat :=
  appendUvarint pb s.length ++ s

/-! Standard LEB128 decoding, the mathematical inverse stated by the spec
(the repository is write-only and has no decoder of its own). -/

/-- Standard unsigned LEB128 decoder: returns the value and the rest. -/
def readUvarint : List Nat → Option (Nat × List Nat)
  | [] => none
  | b :: rest =>
    if b < 128 then some (b, rest)
    else
      match readUvarint rest with
      | none => none
      | some (n, r) => some (n * 128 + (b - 128), r)

/-- Inverse of the zigzag mapping. -/
def unzigzag64 (u : Nat) : Int :=
  if u % 2 = 0 then (u / 2 : Nat) else -(u / 2 : Nat) - 1

/-- Zigzag LEB128 decoder. -/
def readVarint (bs : List Nat) : Option (Int × List Nat) :=
  match readUvarint bs with
  | none => none
  | some (u, r) => some (unzigzag64 u, r)

theorem readUvarint_putUvarint (n : Nat) (rest : List Nat) :
    readUvarint (putUvarint n ++ rest) = some (n, rest) := by
  induction n using Nat.strong_induction_on with
  | _ n ih =>
    rw [putUvarint_eq]
    by_cases h : n < 128
    · simp [h, readUvarint]
    · have hlt : n / 128 < n := Nat.div_lt_self (by omega) (by omega)
      simp only [h, if_false, List.cons_append]
      rw [readUvarint]
      have hge : ¬ (n % 128 + 128 < 128) := by omega
      simp only [hge, if_false, ih (n / 128) hlt]
      have : n / 128 * 128 + (n % 128 + 128 - 128) = n := by omega
      rw [this]

theorem unzigzag64_zigzag64 (x : Int) (h1 : -(2 ^ 63) ≤ x) (h2 : x < 2 ^ 63) :
    unzigzag64 (zigzag64 x) = x := by
  unfold zigzag64 unzigzag64 uint64Cast
  have hpow : (2 : Int) ^ 64 = 18446744073709551616 := by norm_num
  have hpow63 : (2 : Int) ^ 63 = 9223372036854775808 := by norm_num
  rw [hpow] at *
  rw [hpow63] at h2
  rw [show -(2 ^ 63 : Int) = -9223372036854775808 from by norm_num] at h1
  by_cases hx : x < 0
  · simp only [hx, if_true]
    have hem : x % (18446744073709551616 : Int) = x + 18446744073709551616 := by omega
    rw [hem]
    split <;> omega
  · simp only [hx, if_false]
    have hem : x % (18446744073709551616 : Int) = x := by omega
    rw [hem]
    split <;> omega

/-- Claim C8: for every `uint64` n (including 0 and `2^64 - 1`), standard
LEB128 decoding of the bytes `appendUvarint` appends returns n; and for
every `int64` n (including the extremes), zigzag-then-LEB128 decoding of
the bytes `appendVarint` appends returns n. -/
theorem claim_C8 :
    (∀ n : Nat, n < 2 ^ 64 → readUvarint (appendUvarint [] n) = some (n, [])) ∧
    (∀ x : Int, -(2 ^ 63) ≤ x → x < 2 ^ 63 →
      readVarint (appendVarint [] x) = some (x, [])) := by
  constructor
  · intro n _
    have := readUvarint_putUvarint n []
    simpa [appendUvarint] using this
  · intro x hlo hhi
    have hu := readUvarint_putUvarint (zigzag64 x) []
    rw [List.append_nil] at hu
    unfold readVarint appendVarint
    simp only [appendUvarint, List.nil_append]
    rw [hu]
    show some (unzigzag64 (zigzag64 x), ([] : List Nat)) = some (x, [])
    rw [unzigzag64_zigzag64 x hlo hhi]

/-- Witness for C8 at the extreme inputs `2^64 - 1` and `-(2^63)`. -/
theorem claim_C8_witness :
    readUvarint (appendUvarint [] (2 ^ 64 - 1)) = some (2 ^ 64 - 1, []) ∧
    readVarint (appendVarint [] (-(2 ^ 63))) = some (-(2 ^ 63), []) :=
  ⟨claim_C8.1 _ (by norm_num), claim_C8.2 _ (by norm_num) (by norm_num)⟩

/-! ## Tag values and `encodeValue` (mvt.go lines 282-325)

The dynamically typed `interface{}` argument of `AddTag` becomes the sum
type `TagValue`.  One constructor per arm of the `switch` in
`encodeValue`, plus `goInt` for a value of Go type `int` (which matches
none of the enumerated cases and therefore reaches the `default:` arm,
where `fmt.Sprintf("%v", v)` renders it in decimal), and `other` for any
remaining input type, carrying the bytes of its `%v` rendering. -/

inductive TagValue where
  | str (s : List Nat)
  | u64 (n : Nat)
  | f32 (bits : Nat)
  | f64 (bits : Nat)
  | i64 (n : Int)
  | boolean (b : Bool)
  | u8 (n : Nat)
  | u16 (n : Nat)
  | u32 (n : Nat)
  | i8 (n : Int)
  | i16 (n : Int)
  | i32 (n : Int)
  | byteSlice (s : List Nat)
  | goInt (n : Int)
  | other (text : List Nat)
deriving DecidableEq

/-- The six directly encoded arms of the `switch` in `encodeValue`. -/
inductive BaseValue where
  | str (s : List Nat)
  | u64 (n : Nat)
  | f32 (bits : Nat)
  | f64 (bits : Nat)
  | i64 (n : Int)
  | boolean (b : Bool)
deriving DecidableEq

/-- Little-endian bytes of a 32-bit pattern (`binary.LittleEndian.PutUint32`). -/
def le32 (bits : Nat) : List Nat :=
  [bits % 256, bits / 256 % 256, bits / 256 ^ 2 % 256, bits / 256 ^ 3 % 256]

/-- Little-endian bytes of a 64-bit pattern (`binary.LittleEndian.PutUint64`). -/
def le64 (bits : Nat) : List Nat := le32 (bits % 2 ^ 32) ++ le32 (bits / 2 ^ 32 % 2 ^ 32)

/-- Bytes of `fmt.Sprintf("%v", n)` for a Go `int`: its decimal rendering. -/
def goIntText (n : Int) : List Nat := (toString n).data.map Char.toNat

/-- The delegation performed by the recursive arms of `encodeValue`:
fixed-width integers widen to 64 bits with the same signedness
(`uint64(v)` / `int64(v)`), `[]byte` becomes `string(v)`, and the
`default:` arm becomes the `%v` string. -/
def canonicalValue : TagValue → BaseValue
  | .str s => .str s
  | .u64 n => .u64 n
  | .f32 b => .f32 b
  | .f64 b => .f64 b
  | .i64 n => .i64 n
  | .boolean b => .boolean b
  | .u8 n => .u64 n
  | .u16 n => .u64 n
  | .u32 n => .u64 n
  | .i8 n => .i64 n
  | .i16 n => .i64 n
  | .i32 n => .i64 n
  | .byteSlice s => .str s
  | .goInt n => .str (goIntText n)
  | .other t => .str t

/-- The `vpb` buffer built by one arm of the `switch` in `encodeValue`:
field tag byte, then payload. -/
def valueBody : BaseValue → List Nat
  | .str s => 10 :: appendString [] s
  | .u64 n => 40 :: putUvarint n
  | .f32 b => 21 :: le32 b
  | .f64 b => 25 :: le64 b
  | .i64 n => appendVarint [48] n
  | .boolean b => if b then [56, 1] else [56, 0]

/-- The final wrapping in `encodeValue`: layer-message field 4
(length-delimited, tag byte 34) around the `Value` submessage. -/
def valueWrap (body : List Nat) : List Nat := 34 :: (putUvarint body.length ++ body)

/-- Go `encodeValue` (mvt.go lines 282-325). -/
def encodeValue (v : TagValue) : List Nat := valueWrap (valueBody (canonicalValue v))

/-- Go `encodeKey` (mvt.go lines 276-281): layer-message field 3
(length-delimited, tag byte 26) around the length-prefixed key bytes. -/
def encodeKey (key : List Nat) : List Nat := 26 :: appendString [] key

/-- Counterexample to C1 as stated: the claim puts `int64` values as a
zigzag varint in `Value` field 4 (tag byte `4*8+0 = 32`), but the code
emits field 6 (tag byte 48) for the value `int64(0)`. -/
theorem claim_C1_counterexample :
    ¬ (encodeValue (.i64 0) = valueWrap ((4 * 8 + 0) :: putUvarint (zigzag64 0))) := by
  decide

/-- Claim C1 (amended): every rendered tag value uses string_value in
field 1 (length-delimited), float_value in field 2 (32-bit), double_value
in field 3 (64-bit), zigzag-varint int64 values in field 6, uint64 values
as a varint in field 5, and bool values as a 0/1 varint in field 7. -/
theorem claim_C1 :
    (∀ s, encodeValue (.str s) = valueWrap ((1 * 8 + 2) :: (putUvarint s.length ++ s))) ∧
    (∀ b, encodeValue (.f32 b) = valueWrap ((2 * 8 + 5) :: le32 b)) ∧
    (∀ b, encodeValue (.f64 b) = valueWrap ((3 * 8 + 1) :: le64 b)) ∧
    (∀ n, encodeValue (.i64 n) = valueWrap ((6 * 8 + 0) :: putUvarint (zigzag64 n))) ∧
    (∀ n, encodeValue (.u64 n) = valueWrap ((5 * 8 + 0) :: putUvarint n)) ∧
    (∀ b, encodeValue (.boolean b) = valueWrap ((7 * 8 + 0) :: [if b then 1 else 0])) := by
  refine ⟨fun s => rfl, fun b => rfl, fun b => rfl, fun n => rfl, fun n => rfl, fun b => ?_⟩
  cases b <;> rfl

/-- Counterexample to C3 as stated: a Go `int` is an integer type other
than `uint64`/`int64`, yet encoding `int(5)` does not produce the bytes
of the widened `int64(5)` - it falls through to the textual fallback. -/
theorem claim_C3_counterexample :
    ¬ (encodeValue (.goInt 5) = encodeValue (.i64 5)) := by
  decide

/-- Claim C3 (amended): exactly the fixed-width integer types uint8,
uint16, uint32 (resp. int8, int16, int32) encode to the same wire bytes
as the same number widened to uint64 (resp. int64), so they dedupe with
the corresponding 64-bit value; every other input type - including other
integer types such as Go `int` - falls back to the textual-representation
string encoding (a `[]byte` is string-encoded from its own bytes). -/
theorem claim_C3 :
    (∀ n, encodeValue (.u8 n) = encodeValue (.u64 n)) ∧
    (∀ n, encodeValue (.u16 n) = encodeValue (.u64 n)) ∧
    (∀ n, encodeValue (.u32 n) = encodeValue (.u64 n)) ∧
    (∀ n, encodeValue (.i8 n) = encodeValue (.i64 n)) ∧
    (∀ n, encodeValue (.i16 n) = encodeValue (.i64 n)) ∧
    (∀ n, encodeValue (.i32 n) = encodeValue (.i64 n)) ∧
    (∀ n, encodeValue (.goInt n) = encodeValue (.str (goIntText n))) ∧
    (∀ s, encodeValue (.byteSlice s) = encodeValue (.str s)) ∧
    (∀ t, encodeValue (.other t) = encodeValue (.str t)) :=
  ⟨fun _ => rfl, fun _ => rfl, fun _ => rfl, fun _ => rfl, fun _ => rfl,
   fun _ => rfl, fun _ => rfl, fun _ => rfl, fun _ => rfl⟩

/-! ## Geometry commands and the command packer (mvt.go lines 66-75, 103-116, 222-274)

A `GeomCommand` is one entry of `Feature.geometry`: the opcode constant
(`moveTo = 1`, `lineTo = 2`, `closePath = 7`) plus the two pixel
coordinates (`ClosePath` stores `(0, 0)`). -/

def moveTo : Nat := 1

def lineTo : Nat := 2

def closePath : Nat := 7

structure GeomCommand where
  which : Nat
  x : ℚ
  y : ℚ
deriving DecidableEq

/-- Go `commandInteger` (mvt.go lines 272-274): `uint32((id & 0x7) | (count << 3))`. -/
def commandInteger (id count : Nat) : Nat :=
  (Nat.lor (Nat.land id 7) (count <<< 3)) % 2 ^ 32

/-- Go `int64(f)` truncates the float toward zero; on the exact rational
model this is truncating division of numerator by denominator. -/
def ratTrunc (q : ℚ) : Int := Int.tdiv q.num (q.den : Int)

/-- The coordinate scaling in `Feature.append` (mvt.go lines 248-249):
`int64(c / 256.0 * extent)`. -/
def scaleCoord (extent : ℚ) (c : ℚ) : Int := ratTrunc (c / 256 * extent)

/-- One logical element of the packed geometry stream: a command integer
or a zigzag-encoded delta pair.  The byte stream is the concatenation of
`itemBytes` over the items. -/
inductive GItem where
  | cmd (which count : Nat)
  | coord (dx dy : Int)
deriving DecidableEq

def itemBytes : GItem → List Nat
  | .cmd w c => putUvarint (commandInteger w c)
  | .coord dx dy => appendVarint [] dx ++ appendVarint [] dy

/-- Length of the run of leading commands whose opcode is `w` (the inner
`for j := i + 1; ...` scan of mvt.go lines 235-240 measures
`runLen which rest`). -/
def runLen (w : Nat) : List GeomCommand → Nat
  | [] => 0
  | c :: rest => if c.which = w then runLen w rest + 1 else 0

/-- The inner `for j := 0; j < count; j++` loop of mvt.go lines 247-255:
emit one delta pair per command of the run, threading the last emitted
scaled point.  Returns the items and the final `(lastx, lasty)`. -/
def emitRun (extent : ℚ) : List GeomCommand → Int → Int → List GItem × Int × Int
  | [], lastx, lasty => ([], lastx, lasty)
  | c :: rest, lastx, lasty =>
    let x := scaleCoord extent c.x
    let y := scaleCoord extent c.y
    let out := emitRun extent rest x y
    (GItem.coord (x - lastx) (y - lasty) :: out.1, out.2)

/-- The outer `for i := 0; i < len(f.geometry);` loop of mvt.go lines
232-258, with fuel.  For a MoveTo/LineTo run the loop consumes the whole
run (`i += count`); for any other opcode it emits the command integer
with the full measured run length but advances by a single element
(`default: i++`). -/
def packBodyAux (extent : ℚ) : Nat → List GeomCommand → Int → Int → List GItem
  | 0, _, _, _ => []
  | _ + 1, [], _, _ => []
  | fuel + 1, c :: rest, lastx, lasty =>
    let k := runLen c.which rest
    if c.which = moveTo ∨ c.which = lineTo then
      let out := emitRun extent (c :: rest.take k) lastx lasty
      GItem.cmd c.which (1 + k) ::
        (out.1 ++ packBodyAux extent fuel (rest.drop k) out.2.1 out.2.2)
    else
      GItem.cmd c.which (1 + k) :: packBodyAux extent fuel rest lastx lasty

def packBody (extent : ℚ) (g : List GeomCommand) (lastx lasty : Int) : List GItem :=
  packBodyAux extent g.length g lastx lasty

/-- The geometry stream construction of mvt.go lines 222-258 at the item
level: if the first command is not a MoveTo, an implicit
`MoveTo` command integer with count 1 and the delta pair `(0, 0)` are
synthesized first, then the run-length packing loop runs over the whole
sequence starting from `lastx = lasty = 0`. -/
def geomItems (extent : ℚ) (g : List GeomCommand) : List GItem :=
  match g with
  | [] => []
  | c :: _ =>
    (if c.which ≠ moveTo then [GItem.cmd moveTo 1, GItem.coord 0 0] else []) ++
      packBody extent g 0 0

/-- The packed geometry byte stream `gpb` of `Feature.append`. -/
def geomStream (extent : ℚ) (g : List GeomCommand) : List Nat :=
  (geomItems extent g).flatMap itemBytes

theorem packBodyAux_congr (extent : ℚ) :
    ∀ fuel₁ fuel₂ (g : List GeomCommand) (lastx lasty : Int),
      g.length ≤ fuel₁ → g.length ≤ fuel₂ →
      packBodyAux extent fuel₁ g lastx lasty = packBodyAux extent fuel₂ g lastx lasty := by
  intro fuel₁
  induction fuel₁ with
  | zero =>
    intro fuel₂ g lastx lasty h1 _
    have hg : g = [] := List.length_eq_zero.mp (by omega)
    subst hg
    cases fuel₂ <;> simp [packBodyAux]
  | succ f ih =>
    intro fuel₂ g lastx lasty h1 h2
    cases g with
    | nil => cases fuel₂ <;> simp [packBodyAux]
    | cons c rest =>
      cases fuel₂ with
      | zero => simp at h2
      | succ f₂ =>
        simp only [packBodyAux]
        have hk : runLen c.which rest ≤ rest.length := by
          clear h1 h2
          induction rest with
          | nil => simp [runLen]
          | cons d ds ihd =>
            simp only [runLen, List.length_cons]
            split <;> omega
        split
        · have hdrop : (rest.drop (runLen c.which rest)).length ≤ f := by
            rw [List.length_drop]
            simp at h1
            omega
          have hdrop₂ : (rest.drop (runLen c.which rest)).length ≤ f₂ := by
            rw [List.length_drop]
            simp at h2
            omega
          rw [ih _ _ _ _ hdrop hdrop₂]
        · have hr : rest.length ≤ f := by simp at h1; omega
          have hr₂ : rest.length ≤ f₂ := by simp at h2; omega
          rw [ih _ _ _ _ hr hr₂]

theorem packBody_nil (extent : ℚ) (lastx lasty : Int) :
    packBody extent [] lastx lasty = [] := rfl

/-- The defining equation of one turn of the packing loop, fuel
eliminated. -/
theorem packBody_cons (extent : ℚ) (c : GeomCommand) (rest : List GeomCommand)
    (lastx lasty : Int) :
    packBody extent (c :: rest) lastx lasty =
      if c.which = moveTo ∨ c.which = lineTo then
        GItem.cmd c.which (1 + runLen c.which rest) ::
          ((emitRun extent (c :: rest.take (runLen c.which rest)) lastx lasty).1 ++
            packBody extent (rest.drop (runLen c.which rest))
              (emitRun extent (c :: rest.take (runLen c.which rest)) lastx lasty).2.1
              (emitRun extent (c :: rest.take (runLen c.which rest)) lastx lasty).2.2)
      else
        GItem.cmd c.which (1 + runLen c.which rest) :: packBody extent rest lastx lasty := by
  show packBodyAux extent (rest.length + 1) (c :: rest) lastx lasty = _
  simp only [packBodyAux]
  split
  · rw [packBodyAux_congr extent rest.length (rest.drop (runLen c.which rest)).length
      (rest.drop (runLen c.which rest)) _ _ (by rw [List.length_drop]; omega) (Nat.le_refl _)]
    rfl
  · rfl

/-- Claim C2 (evaluation at the failing input): a geometry consisting of
two consecutive ClosePath operations.  The packed stream contains TWO
command integers for the ClosePath run - `(7 & 0x7) | (2 << 3) = 23`
followed by `(7 & 0x7) | (1 << 3) = 15` - because the loop emits the full
measured run length but advances only one element for ClosePath.  The
claim's predicted stream (a single command integer 23 for the run, after
the implicit MoveTo prefix) is not what the code produces. -/
theorem claim_C2 :
    geomStream 4096 [⟨closePath, 0, 0⟩, ⟨closePath, 0, 0⟩] =
      putUvarint (commandInteger moveTo 1) ++ appendVarint [] 0 ++ appendVarint [] 0 ++
        (putUvarint (commandInteger closePath 2) ++ putUvarint (commandInteger closePath 1)) ∧
    commandInteger closePath 2 = 23 ∧
    commandInteger closePath 1 = 15 ∧
    geomStream 4096 [⟨closePath, 0, 0⟩, ⟨closePath, 0, 0⟩] ≠
      putUvarint (commandInteger moveTo 1) ++ appendVarint [] 0 ++ appendVarint [] 0 ++
        putUvarint (commandInteger closePath 2) := by
  refine ⟨by decide, by decide, by decide, by decide⟩

/-- Claim C5: when a feature's geometry is non-empty and does not start
with MoveTo, the packed stream starts with the command integer of a
count-1 MoveTo and the zigzag-encoded delta pair (0, 0), followed by the
packing of the actual operations (whose first item is the command integer
of the actual first operation); when it starts with MoveTo, no prefix is
added. -/
theorem claim_C5 (extent : ℚ) (g : List GeomCommand) (c : GeomCommand)
    (hhead : g.head? = some c) :
    (c.which ≠ moveTo →
      geomStream extent g =
        putUvarint (commandInteger moveTo 1) ++ appendVarint [] 0 ++ appendVarint [] 0 ++
          (packBody extent g 0 0).flatMap itemBytes) ∧
    (c.which = moveTo →
      geomStream extent g = (packBody extent g 0 0).flatMap itemBytes) ∧
    ∃ rest, packBody extent g 0 0 =
      GItem.cmd c.which (1 + runLen c.which g.tail) :: rest := by
  cases g with
  | nil => simp at hhead
  | cons a as =>
    have hac : a = c := by simpa using hhead
    subst hac
    refine ⟨?_, ?_, ?_⟩
    · intro hne
      simp only [geomStream, geomItems, hne, ne_eq, not_false_eq_true, if_true,
        List.flatMap_append]
      simp [itemBytes, List.append_assoc]
    · intro heq
      simp [geomStream, geomItems, heq]
    · rw [packBody_cons]
      simp only [List.tail_cons]
      split
      · exact ⟨_, rfl⟩
      · exact ⟨_, rfl⟩

/-- Witness for C5: a single ClosePath with no prior MoveTo gets the
implicit MoveTo(0,0) prefix. -/
theorem claim_C5_witness :
    geomStream 4096 [⟨closePath, 0, 0⟩] =
      putUvarint (commandInteger moveTo 1) ++ appendVarint [] 0 ++ appendVarint [] 0 ++
        (packBody 4096 [⟨closePath, 0, 0⟩] 0 0).flatMap itemBytes :=
  (claim_C5 4096 [⟨closePath, 0, 0⟩] ⟨closePath, 0, 0⟩ rfl).1 (by decide)

/-! ## The delta-coding contract of the packer (claim C6)

Spec-side definitions, written from the spec's words, to compare against
the packer: the scaled integer points of the MoveTo/LineTo operations in
order, the consecutive deltas against a cumulative last point starting at
(0, 0), and truncation toward zero. -/

/-- Spec-side: truncate a rational toward zero. -/
def truncTowardZero (q : ℚ) : Int := if 0 ≤ q then ⌊q⌋ else -⌊-q⌋

theorem ratTrunc_eq_truncTowardZero (q : ℚ) : ratTrunc q = truncTowardZero q := by
  unfold ratTrunc truncTowardZero
  by_cases h : 0 ≤ q
  · rw [if_pos h, Rat.floor_def]
    exact Int.tdiv_eq_ediv (Rat.num_nonneg.mpr h) (Int.ofNat_nonneg q.den)
  · rw [if_neg h]
    have hneg : (-q).num = -q.num := rfl
    have hden : (-q).den = q.den := rfl
    rw [Rat.floor_def, hneg, hden]
    have h1 : q.num.tdiv (q.den : Int) = -((-q.num).tdiv (q.den : Int)) := by
      rw [Int.neg_tdiv, neg_neg]
    have hnum : 0 ≤ -q.num := by
      have : ¬ 0 ≤ q.num := fun hn => h (Rat.num_nonneg.mp hn)
      omega
    rw [h1, Int.tdiv_eq_ediv hnum (Int.ofNat_nonneg q.den)]

/-- The coordinate delta pairs of an item stream, in emission order. -/
def coordsOf (items : List GItem) : List (Int × Int) :=
  items.filterMap fun i =>
    match i with
    | .coord dx dy => some (dx, dy)
    | .cmd _ _ => none

/-- Spec-side: the truncated scaled points of the MoveTo/LineTo
operations of a geometry, in order. -/
def scaledPoints (extent : ℚ) (g : List GeomCommand) : List (Int × Int) :=
  (g.filter fun c => c.which == moveTo || c.which == lineTo).map
    fun c => (scaleCoord extent c.x, scaleCoord extent c.y)

/-- Spec-side: deltas of a point sequence against a running last point. -/
def deltaFrom : Int × Int → List (Int × Int) → List (Int × Int)
  | _, [] => []
  | p, q :: rest => (q.1 - p.1, q.2 - p.2) :: deltaFrom q rest

/-- The last point of a sequence, or the starting point if it is empty. -/
def lastPoint (p : Int × Int) (l : List (Int × Int)) : Int × Int :=
  l.foldl (fun _ q => q) p

theorem lastPoint_cons (p q : Int × Int) (l : List (Int × Int)) :
    lastPoint p (q :: l) = lastPoint q l := rfl

theorem deltaFrom_append (l₁ : List (Int × Int)) :
    ∀ (p : Int × Int) (l₂ : List (Int × Int)),
      deltaFrom p (l₁ ++ l₂) = deltaFrom p l₁ ++ deltaFrom (lastPoint p l₁) l₂ := by
  induction l₁ with
  | nil => intro p l₂; simp [deltaFrom, lastPoint]
  | cons q l ih =>
    intro p l₂
    simp only [List.cons_append, deltaFrom, lastPoint_cons, List.append_eq]
    rw [ih]

theorem emitRun_items (extent : ℚ) :
    ∀ (run : List GeomCommand) (lastx lasty : Int),
      (emitRun extent run lastx lasty).1 =
        (deltaFrom (lastx, lasty)
            (run.map fun c => (scaleCoord extent c.x, scaleCoord extent c.y))).map
          (fun p => GItem.coord p.1 p.2) ∧
      (emitRun extent run lastx lasty).2 =
        lastPoint (lastx, lasty)
          (run.map fun c => (scaleCoord extent c.x, scaleCoord extent c.y)) := by
  intro run
  induction run with
  | nil => intro lastx lasty; simp [emitRun, deltaFrom, lastPoint]
  | cons c rest ih =>
    intro lastx lasty
    simp only [emitRun, List.map_cons, deltaFrom, lastPoint_cons, List.map_cons]
    exact ⟨by rw [(ih _ _).1], (ih _ _).2⟩

theorem runLen_take (w : Nat) :
    ∀ rest : List GeomCommand, ∀ c ∈ rest.take (runLen w rest), c.which = w := by
  intro rest
  induction rest with
  | nil => simp
  | cons d ds ih =>
    simp only [runLen]
    split
    · intro c hc
      rcases List.mem_cons.mp (by simpa using hc) with h | h
      · subst h; assumption
      · exact ih c h
    · simp

theorem scaledPoints_split (extent : ℚ) (c : GeomCommand) (rest : List GeomCommand)
    (hc : c.which = moveTo ∨ c.which = lineTo) :
    scaledPoints extent (c :: rest) =
      ((c :: rest.take (runLen c.which rest)).map
        fun d => (scaleCoord extent d.x, scaleCoord extent d.y)) ++
      scaledPoints extent (rest.drop (runLen c.which rest)) := by
  unfold scaledPoints
  have hsplit : c :: rest =
      (c :: rest.take (runLen c.which rest)) ++ rest.drop (runLen c.which rest) := by
    rw [List.cons_append, List.take_append_drop]
  rw [hsplit, List.filter_append, List.map_append]
  congr 1
  rw [List.filter_eq_self.mpr]
  intro a ha
  rcases List.mem_cons.mp ha with h | h
  · subst h
    rcases hc with h | h <;> simp [h, moveTo, lineTo]
  · have := runLen_take c.which rest a h
    rw [this]
    rcases hc with h' | h' <;> simp [h', moveTo, lineTo]

theorem coordsOf_nil : coordsOf [] = [] := rfl

theorem coordsOf_cmd (w k : Nat) (l : List GItem) :
    coordsOf (GItem.cmd w k :: l) = coordsOf l := rfl

theorem coordsOf_coord (dx dy : Int) (l : List GItem) :
    coordsOf (GItem.coord dx dy :: l) = (dx, dy) :: coordsOf l := rfl

theorem coordsOf_append (l₁ l₂ : List GItem) :
    coordsOf (l₁ ++ l₂) = coordsOf l₁ ++ coordsOf l₂ := by
  unfold coordsOf
  exact List.filterMap_append l₁ l₂ _

theorem coordsOf_map_coord (l : List (Int × Int)) :
    coordsOf (l.map fun p => GItem.coord p.1 p.2) = l := by
  induction l with
  | nil => rfl
  | cons p rest ih =>
    simp only [List.map_cons, coordsOf_coord, ih]

theorem coordsOf_packBody (extent : ℚ) :
    ∀ (n : Nat) (g : List GeomCommand), g.length ≤ n → ∀ (lastx lasty : Int),
      coordsOf (packBody extent g lastx lasty) =
        deltaFrom (lastx, lasty) (scaledPoints extent g) := by
  intro n
  induction n with
  | zero =>
    intro g hg lastx lasty
    have : g = [] := List.length_eq_zero.mp (by omega)
    subst this
    simp [packBody, packBodyAux, coordsOf, scaledPoints, deltaFrom]
  | succ m ih =>
    intro g hg lastx lasty
    cases g with
    | nil => simp [packBody, packBodyAux, coordsOf, scaledPoints, deltaFrom]
    | cons c rest =>
      rw [packBody_cons]
      split
      · rename_i hc
        rw [coordsOf_cmd, coordsOf_append]
        have hrun := emitRun_items extent (c :: rest.take (runLen c.which rest)) lastx lasty
        have hdrop : (rest.drop (runLen c.which rest)).length ≤ m := by
          rw [List.length_drop]
          simp only [List.length_cons] at hg
          omega
        rw [ih _ hdrop, hrun.1, coordsOf_map_coord]
        rw [scaledPoints_split extent c rest hc, deltaFrom_append]
        congr 1
        rw [← Prod.mk.eta (p := (emitRun extent (c :: rest.take (runLen c.which rest))
          lastx lasty).2), hrun.2]
      · rename_i hc
        have hrest : rest.length ≤ m := by
          simp only [List.length_cons] at hg
          omega
        rw [coordsOf_cmd, ih _ hrest]
        unfold scaledPoints
        rw [List.filter_cons_of_neg]
        simp only [Bool.or_eq_true, beq_iff_eq]
        exact hc

/-- Claim C6: the emitted coordinate pairs of a packed geometry stream
are exactly the consecutive deltas of the truncated scaled points
`trunc(x / 256 * extent)` of the MoveTo/LineTo operations, threaded
against a cumulative last point that starts at (0, 0) and is never reset
within the feature (with the synthesized `(0, 0)` pair first when the
geometry does not start with MoveTo); each pair is emitted as the zigzag
varint of dx followed by the zigzag varint of dy, and the truncation is
truncation toward zero. -/
theorem claim_C6 (extent : ℚ) (g : List GeomCommand) :
    coordsOf (geomItems extent g) =
      (match g with
       | [] => []
       | c :: _ => if c.which ≠ moveTo then [((0 : Int), (0 : Int))] else []) ++
        deltaFrom (0, 0) (scaledPoints extent g) ∧
    (∀ dx dy, itemBytes (.coord dx dy) =
      putUvarint (zigzag64 dx) ++ putUvarint (zigzag64 dy)) ∧
    (∀ q, scaleCoord extent q = truncTowardZero (q / 256 * extent)) := by
  refine ⟨?_, fun dx dy => rfl, fun q => ratTrunc_eq_truncTowardZero _⟩
  cases g with
  | nil => simp [geomItems, coordsOf, scaledPoints, deltaFrom]
  | cons c rest =>
    unfold geomItems
    rw [coordsOf_append]
    rw [coordsOf_packBody extent (c :: rest).length (c :: rest) (Nat.le_refl _) 0 0]
    congr 1
    by_cases hc : c.which ≠ moveTo
    · simp [hc, coordsOf_cmd, coordsOf_coord, coordsOf_nil]
    · simp [hc, coordsOf_nil]

/-! ## Data model: Tag, Feature, Layer, Tile (mvt.go lines 16-116)

The `z, x, y` tile coordinates and the `rect` bounding rectangle stored
on `Tile`/`Layer` are used only by the out-of-scope GeoJSON ingestion
helpers, never by the encoder, and are omitted. -/

structure Tag where
  key : List Nat
  val : TagValue
deriving DecidableEq

structure Feature where
  geomType : Nat
  id : Nat
  hasID : Bool
  tags : List Tag
  geometry : List GeomCommand
deriving DecidableEq

structure Layer where
  name : List Nat
  features : List Feature
  extent : Nat
  hasExtent : Bool
deriving DecidableEq

structure Tile where
  layers : List Layer
deriving DecidableEq

/-- Go `Layer.SetExtent` (mvt.go lines 33-37). -/
def Layer.setExtent (l : Layer) (extent : Nat) : Layer :=
  { l with extent := extent, hasExtent := true }

/-- Go `Tile.AddLayer` (mvt.go lines 39-45): a fresh layer has no extent set. -/
def Tile.addLayer (t : Tile) (name : List Nat) : Tile :=
  { t with layers := t.layers ++ [{ name := name, features := [], extent := 0,
                                    hasExtent := false }] }

/-- Go `Layer.AddFeature` (mvt.go lines 86-90): a fresh feature is zero-valued. -/
def Layer.addFeature (l : Layer) (geomType : Nat) : Layer :=
  { l with features := l.features ++ [{ geomType := geomType, id := 0, hasID := false,
                                        tags := [], geometry := [] }] }

/-- Go `Feature.SetID` (mvt.go lines 92-96). -/
def Feature.setID (f : Feature) (id : Nat) : Feature :=
  { f with id := id, hasID := true }

/-- Go `Feature.AddTag` (mvt.go lines 98-101). -/
def Feature.addTag (f : Feature) (key : List Nat) (v : TagValue) : Feature :=
  { f with tags := f.tags ++ [{ key := key, val := v }] }

/-- Go `Feature.MoveTo` (mvt.go lines 103-106). -/
def Feature.moveToCmd (f : Feature) (x y : ℚ) : Feature :=
  { f with geometry := f.geometry ++ [{ which := moveTo, x := x, y := y }] }

/-- Go `Feature.LineTo` (mvt.go lines 108-111). -/
def Feature.lineToCmd (f : Feature) (x y : ℚ) : Feature :=
  { f with geometry := f.geometry ++ [{ which := lineTo, x := x, y := y }] }

/-- Go `Feature.ClosePath` (mvt.go lines 113-116). -/
def Feature.closePathCmd (f : Feature) : Feature :=
  { f with geometry := f.geometry ++ [{ which := closePath, x := 0, y := 0 }] }

/-! ## Per-layer tag deduplication (mvt.go lines 127-157)

`collectTags` walks every tag of every feature in order.  The Go code
keeps two hash maps from encoded bytes to first-seen index alongside the
two insertion-ordered arrays; since the map entry for a key is always its
first position in the array, the map lookup is `List.indexOf` into the
array built so far, and the fresh-index counter equals the array length. -/

/-- The Go map insert: keep the table unchanged when the encoded bytes
were already seen, otherwise push them at the end (index = old length). -/
def insertIfAbsent (l : List (List Nat)) (a : List Nat) : List (List Nat) :=
  if a ∈ l then l else l ++ [a]

def collectStep (acc : List (List Nat) × List (List Nat) × List Nat) (t : Tag) :
    List (List Nat) × List (List Nat) × List Nat :=
  (insertIfAbsent acc.1 (encodeKey t.key),
   insertIfAbsent acc.2.1 (encodeValue t.val),
   acc.2.2 ++ [List.indexOf (encodeKey t.key) acc.1] ++
     [List.indexOf (encodeValue t.val) acc.2.1])

/-- The flattened tag list of a layer, in feature order then tag order. -/
def allTags (features : List Feature) : List Tag :=
  features.flatMap fun f => f.tags

/-- Go `Layer.collectTags` (mvt.go lines 127-157): returns
`(keysa, valsa, tagidxs)`. -/
def collectTags (features : List Feature) :
    List (List Nat) × List (List Nat) × List Nat :=
  (allTags features).foldl collectStep ([], [], [])

/-! ## Feature, layer and tile encoding (mvt.go lines 119-270)

`Feature.append` reads `tagidxs[0]` and `tagidxs[1]` once per tag and
then drops two entries; in Go this panics when fewer than two entries
remain, so the consumption is modelled with `Option`. -/

/-- Consume `2 * n` leading entries of the tag-index stream, or fail the
way the Go indexing would panic. -/
def takePairs : Nat → List Nat → Option (List Nat × List Nat)
  | 0, ti => some ([], ti)
  | n + 1, a :: b :: rest =>
    match takePairs n rest with
    | none => none
    | some (used, r) => some (a :: b :: used, r)
  | _ + 1, _ => none

/-- Go `Feature.append` (mvt.go lines 195-270): build the feature submessage
and append it, length-prefixed under field 2 of the layer, to `vpb`;
returns the new buffer and the remaining tag-index stream. -/
def Feature.appendPB (f : Feature) (vpb : List Nat) (tagidxs : List Nat)
    (extent : ℚ) : Option (List Nat × List Nat) :=
  match takePairs f.tags.length tagidxs with
  | none => none
  | some (used, rest) =>
    let pb :=
      (if f.hasID then 8 :: putUvarint f.id else []) ++
      (if f.tags.length > 0 then
        18 :: (putUvarint (f.tags.length * 2) ++ used.flatMap putUvarint)
      else []) ++
      (if f.geomType ≠ 0 then 24 :: putUvarint f.geomType else []) ++
      (if f.geometry ≠ [] then
        34 :: (putUvarint (geomStream extent f.geometry).length ++
          geomStream extent f.geometry)
      else [])
    some (vpb ++ 18 :: (putUvarint pb.length ++ pb), rest)

/-- The per-feature loop of `Layer.append` (mvt.go lines 172-174). -/
def featuresFold (extent : ℚ) : List Feature → List Nat → List Nat →
    Option (List Nat × List Nat)
  | [], pb, ti => some (pb, ti)
  | f :: rest, pb, ti =>
    match f.appendPB pb ti extent with
    | none => none
    | some (pb', ti') => featuresFold extent rest pb' ti'

/-- The name field of the layer submessage (mvt.go lines 163-167). -/
def layerNameBytes (l : Layer) : List Nat :=
  if l.name.length > 0 then 10 :: (putUvarint l.name.length ++ l.name) else []

/-- The extent used for geometry scaling (mvt.go lines 168-171):
4096 unless `SetExtent` was called. -/
def layerExtentQ (l : Layer) : ℚ := if l.hasExtent then (l.extent : ℚ) else 4096

/-- The extent field of the layer submessage (mvt.go lines 181-184):
field 5 varint, present only when explicitly set and different from 4096. -/
def layerExtentField (l : Layer) : List Nat :=
  if l.hasExtent ∧ l.extent ≠ 4096 then 40 :: putUvarint l.extent else []

/-- Go `Layer.append` (mvt.go lines 159-193): name, features, key table,
value table, optional extent, version 2 (field 15, tag byte 120), then
the whole submessage length-prefixed under field 3 of the tile. -/
def Layer.appendPB (l : Layer) (vpb : List Nat) : Option (List Nat) :=
  match featuresFold (layerExtentQ l) l.features (layerNameBytes l)
      (collectTags l.features).2.2 with
  | none => none
  | some (pb₀, _) =>
    let pb := pb₀ ++ (collectTags l.features).1.flatten ++
      (collectTags l.features).2.1.flatten ++ layerExtentField l ++ [120, 2]
    some (vpb ++ 26 :: (putUvarint pb.length ++ pb))

/-- The per-layer loop of `Tile.Render` (mvt.go lines 119-125). -/
def renderLayers : List Layer → List Nat → Option (List Nat)
  | [], pb => some pb
  | l :: rest, pb =>
    match l.appendPB pb with
    | none => none
    | some pb' => renderLayers rest pb'

/-- Go `Tile.Render` (mvt.go lines 118-125). -/
def Tile.render (t : Tile) : Option (List Nat) := renderLayers t.layers []

/-! ## Invariants of the tag-collection pass -/

theorem indexOf_cons_nat (a b : List Nat) (l : List (List Nat)) :
    List.indexOf a (b :: l) = if b = a then 0 else List.indexOf a l + 1 := by
  by_cases h : b = a
  · simp [List.indexOf_cons, cond_eq_if, beq_iff_eq, h]
  · simp [List.indexOf_cons, cond_eq_if, beq_iff_eq, h]

theorem indexOf_eq_length_nat (a : List Nat) (l : List (List Nat)) (h : a ∉ l) :
    List.indexOf a l = l.length := by
  induction l with
  | nil => rfl
  | cons b l ih =>
    have hba : ¬ b = a := fun hb => h (hb ▸ List.mem_cons_self b l)
    have hal : a ∉ l := fun ha => h (List.mem_cons_of_mem b ha)
    rw [indexOf_cons_nat, if_neg hba, ih hal, List.length_cons]

theorem indexOf_append_mem_nat (a : List Nat) (l₁ l₂ : List (List Nat)) (h : a ∈ l₁) :
    List.indexOf a (l₁ ++ l₂) = List.indexOf a l₁ := by
  induction l₁ with
  | nil => simp at h
  | cons b l ih =>
    rw [List.cons_append, indexOf_cons_nat, indexOf_cons_nat]
    by_cases hba : b = a
    · rw [if_pos hba, if_pos hba]
    · rcases List.mem_cons.mp h with hab | hal
      · exact absurd hab.symm hba
      · rw [if_neg hba, if_neg hba, ih hal]

theorem indexOf_append_absent_nat (a : List Nat) (l₁ l₂ : List (List Nat)) (h : a ∉ l₁) :
    List.indexOf a (l₁ ++ l₂) = l₁.length + List.indexOf a l₂ := by
  induction l₁ with
  | nil => simp
  | cons b l ih =>
    have hba : ¬ b = a := fun hb => h (hb ▸ List.mem_cons_self b l)
    have hal : a ∉ l := fun ha => h (List.mem_cons_of_mem b ha)
    rw [List.cons_append, indexOf_cons_nat, if_neg hba, ih hal, List.length_cons]
    omega

theorem indexOf_inj_nat (x y : List Nat) (l : List (List Nat)) (hx : x ∈ l) (hy : y ∈ l)
    (h : List.indexOf x l = List.indexOf y l) : x = y := by
  induction l with
  | nil => simp at hx
  | cons b l ih =>
    rw [indexOf_cons_nat, indexOf_cons_nat] at h
    by_cases hbx : b = x
    · by_cases hby : b = y
      · rw [← hbx, hby]
      · rw [if_pos hbx, if_neg hby] at h
        omega
    · by_cases hby : b = y
      · rw [if_neg hbx, if_pos hby] at h
        omega
      · rw [if_neg hbx, if_neg hby] at h
        have hxl : x ∈ l := by
          rcases List.mem_cons.mp hx with hh | hh
          · exact absurd hh.symm hbx
          · exact hh
        have hyl : y ∈ l := by
          rcases List.mem_cons.mp hy with hh | hh
          · exact absurd hh.symm hby
          · exact hh
        exact ih hxl hyl (by omega)

theorem insertIfAbsent_mem (l : List (List Nat)) (a k : List Nat) :
    k ∈ insertIfAbsent l a ↔ k ∈ l ∨ k = a := by
  unfold insertIfAbsent
  split
  · rename_i h
    constructor
    · exact Or.inl
    · rintro (hk | hk)
      · exact hk
      · rwa [hk]
  · simp

theorem insertIfAbsent_nodup (l : List (List Nat)) (a : List Nat) (h : l.Nodup) :
    (insertIfAbsent l a).Nodup := by
  unfold insertIfAbsent
  split
  · exact h
  · rename_i hna
    simp [List.nodup_append, h, hna]

theorem insertIfAbsent_ext (l : List (List Nat)) (a : List Nat) :
    ∃ e, insertIfAbsent l a = l ++ e := by
  unfold insertIfAbsent
  split
  · exact ⟨[], by simp⟩
  · exact ⟨[a], rfl⟩

theorem insertIfAbsent_self_mem (l : List (List Nat)) (a : List Nat) :
    a ∈ insertIfAbsent l a := by
  rw [insertIfAbsent_mem]
  exact Or.inr rfl

theorem indexOf_insertIfAbsent (l : List (List Nat)) (a : List Nat) :
    List.indexOf a (insertIfAbsent l a) = List.indexOf a l := by
  unfold insertIfAbsent
  split
  · rfl
  · rename_i hna
    rw [indexOf_append_absent_nat a l [a] hna, indexOf_eq_length_nat a l hna,
      indexOf_cons_nat]
    simp

theorem collectFold_invariant :
    ∀ (tags : List Tag) (ks vs : List (List Nat)) (ti : List Nat)
      (ks' vs' : List (List Nat)) (ti' : List Nat),
      tags.foldl collectStep (ks, vs, ti) = (ks', vs', ti') →
      ks.Nodup → vs.Nodup →
      ks'.Nodup ∧ vs'.Nodup ∧
      (∃ ke, ks' = ks ++ ke) ∧ (∃ ve, vs' = vs ++ ve) ∧
      (∀ k, k ∈ ks' ↔ k ∈ ks ∨ ∃ t ∈ tags, encodeKey t.key = k) ∧
      (∀ v, v ∈ vs' ↔ v ∈ vs ∨ ∃ t ∈ tags, encodeValue t.val = v) ∧
      ti' = ti ++ tags.flatMap (fun t =>
        [List.indexOf (encodeKey t.key) ks', List.indexOf (encodeValue t.val) vs']) := by
  intro tags
  induction tags with
  | nil =>
    intro ks vs ti ks' vs' ti' hfold hks hvs
    simp only [List.foldl_nil, Prod.mk.injEq] at hfold
    obtain ⟨h1, h2, h3⟩ := hfold
    subst h1; subst h2; subst h3
    refine ⟨hks, hvs, ⟨[], by simp⟩, ⟨[], by simp⟩, ?_, ?_, by simp⟩
    · intro k; simp
    · intro v; simp
  | cons t ts ih =>
    intro ks vs ti ks' vs' ti' hfold hks hvs
    rw [List.foldl_cons] at hfold
    have hstep : collectStep (ks, vs, ti) t =
        (insertIfAbsent ks (encodeKey t.key), insertIfAbsent vs (encodeValue t.val),
         ti ++ [List.indexOf (encodeKey t.key) ks] ++
           [List.indexOf (encodeValue t.val) vs]) := rfl
    rw [hstep] at hfold
    obtain ⟨h1, h2, ⟨ke, hke⟩, ⟨ve, hve⟩, hmk, hmv, hti⟩ :=
      ih _ _ _ _ _ _ hfold (insertIfAbsent_nodup ks _ hks) (insertIfAbsent_nodup vs _ hvs)
    have hkstab : List.indexOf (encodeKey t.key) ks' = List.indexOf (encodeKey t.key) ks := by
      rw [hke, indexOf_append_mem_nat _ _ _ (insertIfAbsent_self_mem ks _),
        indexOf_insertIfAbsent]
    have hvstab : List.indexOf (encodeValue t.val) vs' =
        List.indexOf (encodeValue t.val) vs := by
      rw [hve, indexOf_append_mem_nat _ _ _ (insertIfAbsent_self_mem vs _),
        indexOf_insertIfAbsent]
    refine ⟨h1, h2, ?_, ?_, ?_, ?_, ?_⟩
    · obtain ⟨e, he⟩ := insertIfAbsent_ext ks (encodeKey t.key)
      exact ⟨e ++ ke, by rw [hke, he, List.append_assoc]⟩
    · obtain ⟨e, he⟩ := insertIfAbsent_ext vs (encodeValue t.val)
      exact ⟨e ++ ve, by rw [hve, he, List.append_assoc]⟩
    · intro k
      rw [hmk k, insertIfAbsent_mem]
      constructor
      · rintro ((hk | hk) | ⟨t', ht', hk⟩)
        · exact Or.inl hk
        · exact Or.inr ⟨t, List.mem_cons_self t ts, hk.symm⟩
        · exact Or.inr ⟨t', List.mem_cons_of_mem t ht', hk⟩
      · rintro (hk | ⟨t', ht', hk⟩)
        · exact Or.inl (Or.inl hk)
        · rcases List.mem_cons.mp ht' with h | h
          · subst h; exact Or.inl (Or.inr hk.symm)
          · exact Or.inr ⟨t', h, hk⟩
    · intro v
      rw [hmv v, insertIfAbsent_mem]
      constructor
      · rintro ((hv | hv) | ⟨t', ht', hv⟩)
        · exact Or.inl hv
        · exact Or.inr ⟨t, List.mem_cons_self t ts, hv.symm⟩
        · exact Or.inr ⟨t', List.mem_cons_of_mem t ht', hv⟩
      · rintro (hv | ⟨t', ht', hv⟩)
        · exact Or.inl (Or.inl hv)
        · rcases List.mem_cons.mp ht' with h | h
          · subst h; exact Or.inl (Or.inr hv.symm)
          · exact Or.inr ⟨t', h, hv⟩
    · rw [hti, List.flatMap_cons, hkstab, hvstab]
      simp [List.append_assoc]

/-- The tag-index stream records exactly two entries per tag. -/
theorem collectTags_tagidxs (fs : List Feature) :
    (collectTags fs).2.2 = (allTags fs).flatMap (fun t =>
      [List.indexOf (encodeKey t.key) (collectTags fs).1,
       List.indexOf (encodeValue t.val) (collectTags fs).2.1]) := by
  obtain ⟨_, _, _, _, _, _, hti⟩ :=
    collectFold_invariant (allTags fs) [] [] [] (collectTags fs).1 (collectTags fs).2.1
      (collectTags fs).2.2 rfl List.nodup_nil List.nodup_nil
  simpa using hti

theorem length_flatMap_pairs (f g : Tag → Nat) (l : List Tag) :
    (l.flatMap fun t => [f t, g t]).length = 2 * l.length := by
  induction l with
  | nil => rfl
  | cons t ts ih =>
    rw [List.flatMap_cons]
    simp only [List.length_append, List.length_cons, ih, List.length_nil]
    omega

theorem collectTags_length (fs : List Feature) :
    (collectTags fs).2.2.length = 2 * (allTags fs).length := by
  rw [collectTags_tagidxs, length_flatMap_pairs]

/-- The feature of the spec's worked dedup example: one tag
`("a", UInt64(1))` (key byte 97). -/
def exFeature : Feature :=
  { geomType := 0, id := 0, hasID := false,
    tags := [{ key := [97], val := TagValue.u64 1 }], geometry := [] }

/-- Claim C4: after the tag-collection pass, each distinct wire-encoded
key (resp. value) appears exactly once in the key (resp. value) table,
every tag contributes exactly one index pair referring to the first-seen
positions, two tags share a table slot iff their wire encodings are
byte-identical, and the worked example (two features each tagged
`("a", UInt64 1)`) yields one key, one value and index stream
`[0, 0, 0, 0]`; `uint64 5` and `int64 5` never dedupe. -/
theorem claim_C4 :
    (∀ fs : List Feature,
      (collectTags fs).1.Nodup ∧
      (collectTags fs).2.1.Nodup ∧
      (∀ k, k ∈ (collectTags fs).1 ↔ ∃ t ∈ allTags fs, encodeKey t.key = k) ∧
      (∀ v, v ∈ (collectTags fs).2.1 ↔ ∃ t ∈ allTags fs, encodeValue t.val = v) ∧
      (collectTags fs).2.2 = (allTags fs).flatMap (fun t =>
        [List.indexOf (encodeKey t.key) (collectTags fs).1,
         List.indexOf (encodeValue t.val) (collectTags fs).2.1]) ∧
      (∀ t₁ ∈ allTags fs, ∀ t₂ ∈ allTags fs,
        (List.indexOf (encodeKey t₁.key) (collectTags fs).1 =
            List.indexOf (encodeKey t₂.key) (collectTags fs).1 ↔
          encodeKey t₁.key = encodeKey t₂.key) ∧
        (List.indexOf (encodeValue t₁.val) (collectTags fs).2.1 =
            List.indexOf (encodeValue t₂.val) (collectTags fs).2.1 ↔
          encodeValue t₁.val = encodeValue t₂.val))) ∧
    collectTags [exFeature, exFeature] =
      ([encodeKey [97]], [encodeValue (TagValue.u64 1)], [0, 0, 0, 0]) ∧
    encodeValue (TagValue.u64 5) ≠ encodeValue (TagValue.i64 5) := by
  refine ⟨?_, by decide, by decide⟩
  intro fs
  obtain ⟨h1, h2, _, _, hmk, hmv, hti⟩ :=
    collectFold_invariant (allTags fs) [] [] [] (collectTags fs).1 (collectTags fs).2.1
      (collectTags fs).2.2 rfl List.nodup_nil List.nodup_nil
  refine ⟨h1, h2, ?_, ?_, by simpa using hti, ?_⟩
  · intro k
    rw [hmk k]
    simp
  · intro v
    rw [hmv v]
    simp
  · intro t₁ ht₁ t₂ ht₂
    have hk₁ : encodeKey t₁.key ∈ (collectTags fs).1 := (hmk _).mpr (Or.inr ⟨t₁, ht₁, rfl⟩)
    have hk₂ : encodeKey t₂.key ∈ (collectTags fs).1 := (hmk _).mpr (Or.inr ⟨t₂, ht₂, rfl⟩)
    have hv₁ : encodeValue t₁.val ∈ (collectTags fs).2.1 :=
      (hmv _).mpr (Or.inr ⟨t₁, ht₁, rfl⟩)
    have hv₂ : encodeValue t₂.val ∈ (collectTags fs).2.1 :=
      (hmv _).mpr (Or.inr ⟨t₂, ht₂, rfl⟩)
    constructor
    · exact ⟨indexOf_inj_nat _ _ _ hk₁ hk₂, fun h => by rw [h]⟩
    · exact ⟨indexOf_inj_nat _ _ _ hv₁ hv₂, fun h => by rw [h]⟩

/-- Witness for C4: instantiating the dedup invariant on the worked
example shows the single key slot really is the encoded key `"a"`. -/
theorem claim_C4_witness :
    encodeKey [97] ∈ (collectTags [exFeature, exFeature]).1 :=
  ((claim_C4.1 [exFeature, exFeature]).2.2.1 (encodeKey [97])).mpr
    ⟨{ key := [97], val := TagValue.u64 1 }, by decide, rfl⟩

/-! ## Totality of rendering (claim C10) -/

theorem takePairs_some :
    ∀ (n : Nat) (ti : List Nat), 2 * n ≤ ti.length →
      ∃ used r, takePairs n ti = some (used, r) ∧ r.length = ti.length - 2 * n := by
  intro n
  induction n with
  | zero => intro ti _; exact ⟨[], ti, rfl, by omega⟩
  | succ m ih =>
    intro ti hlen
    match ti with
    | [] => simp at hlen
    | [a] => simp at hlen; omega
    | a :: b :: rest =>
      have hr : 2 * m ≤ rest.length := by
        simp only [List.length_cons] at hlen
        omega
      obtain ⟨used, r, heq, hlen'⟩ := ih rest hr
      refine ⟨a :: b :: used, r, ?_, ?_⟩
      · simp only [takePairs, heq]
      · simp only [List.length_cons]
        omega

theorem appendPB_some (f : Feature) (vpb ti : List Nat) (extent : ℚ)
    (h : 2 * f.tags.length ≤ ti.length) :
    ∃ d r, f.appendPB vpb ti extent = some (vpb ++ d, r) ∧
      r.length = ti.length - 2 * f.tags.length := by
  obtain ⟨used, r, heq, hlen⟩ := takePairs_some f.tags.length ti h
  unfold Feature.appendPB
  rw [heq]
  exact ⟨_, r, rfl, hlen⟩

theorem featuresFold_some (extent : ℚ) :
    ∀ (fs : List Feature) (pb ti : List Nat), 2 * (allTags fs).length ≤ ti.length →
      ∃ d r, featuresFold extent fs pb ti = some (pb ++ d, r) := by
  intro fs
  induction fs with
  | nil => intro pb ti _; exact ⟨[], ti, by simp [featuresFold]⟩
  | cons f rest ih =>
    intro pb ti hlen
    have htags : allTags (f :: rest) = f.tags ++ allTags rest := by
      simp [allTags]
    rw [htags, List.length_append] at hlen
    obtain ⟨d₁, r₁, heq₁, hlen₁⟩ := appendPB_some f pb ti extent (by omega)
    obtain ⟨d₂, r₂, heq₂⟩ := ih (pb ++ d₁) r₁ (by omega)
    refine ⟨d₁ ++ d₂, r₂, ?_⟩
    simp only [featuresFold, heq₁, heq₂, List.append_assoc]

theorem layerAppendPB_some (l : Layer) (vpb : List Nat) :
    ∃ body, l.appendPB vpb = some (vpb ++ 26 :: (putUvarint body.length ++ body)) ∧
      ∃ d, body = layerNameBytes l ++ d ++ (collectTags l.features).1.flatten ++
        (collectTags l.features).2.1.flatten ++ layerExtentField l ++ [120, 2] := by
  obtain ⟨d, r, heq⟩ := featuresFold_some (layerExtentQ l) l.features (layerNameBytes l)
    (collectTags l.features).2.2 (by rw [collectTags_length])
  unfold Layer.appendPB
  rw [heq]
  refine ⟨_, rfl, d, ?_⟩
  simp [List.append_assoc]

theorem renderLayers_some : ∀ (ls : List Layer) (pb : List Nat),
    ∃ out, renderLayers ls pb = some out := by
  intro ls
  induction ls with
  | nil => intro pb; exact ⟨pb, rfl⟩
  | cons l rest ih =>
    intro pb
    obtain ⟨body, heq, _⟩ := layerAppendPB_some l pb
    obtain ⟨out, hout⟩ := ih (pb ++ 26 :: (putUvarint body.length ++ body))
    exact ⟨out, by simp only [renderLayers, heq, hout]⟩

/-- Claim C10: rendering any tile built by any sequence of builder
operations never panics: every builder operation is a total function of
the object graph, the tag-index stream built by the collection pass has
exactly two entries per tag, and `Render` (whose only failure mode is the
feature encoder's indexing into that stream) always returns a result. -/
theorem claim_C10 :
    (∀ t : Tile, (Tile.render t).isSome) ∧
    (∀ fs : List Feature, (collectTags fs).2.2.length = 2 * (allTags fs).length) := by
  refine ⟨?_, collectTags_length⟩
  intro t
  obtain ⟨out, hout⟩ := renderLayers_some t.layers []
  unfold Tile.render
  rw [hout]
  rfl

/-- Claim C7: geometry scaling uses extent 4096 when `SetExtent` was
never called; the layer submessage carries the extent field (field 5,
varint, tag byte 40) iff `SetExtent` was called with a value other than
4096; `SetExtent 4096` or never calling it leaves the field absent. -/
theorem claim_C7 (l : Layer) :
    (l.hasExtent = false → layerExtentQ l = 4096 ∧ layerExtentField l = []) ∧
    (∀ e, layerExtentQ (l.setExtent e) = e ∧
      layerExtentField (l.setExtent e) =
        if e ≠ 4096 then 40 :: putUvarint e else []) ∧
    layerExtentField (l.setExtent 4096) = [] ∧
    (layerExtentField l = [] ↔ ¬(l.hasExtent = true ∧ l.extent ≠ 4096)) ∧
    (∃ body, l.appendPB [] = some (26 :: (putUvarint body.length ++ body)) ∧
      ∃ d, body = layerNameBytes l ++ d ++ (collectTags l.features).1.flatten ++
        (collectTags l.features).2.1.flatten ++ layerExtentField l ++ [120, 2]) := by
  refine ⟨?_, ?_, ?_, ?_, ?_⟩
  · intro h
    constructor
    · simp [layerExtentQ, h]
    · simp [layerExtentField, h]
  · intro e
    constructor
    · simp [layerExtentQ, Layer.setExtent]
    · by_cases he : e = 4096
      · simp [layerExtentField, Layer.setExtent, he]
      · simp [layerExtentField, Layer.setExtent, he]
  · simp [layerExtentField, Layer.setExtent]
  · unfold layerExtentField
    split
    · rename_i h
      constructor
      · intro hcontra; cases hcontra
      · intro hcon; exact absurd ⟨h.1, h.2⟩ hcon
    · rename_i h
      simp only [true_iff]
      intro hcontra
      exact h ⟨hcontra.1, hcontra.2⟩
  · have := layerAppendPB_some l []
    simpa using this

/-- Witness for C7 at a concrete never-set layer. -/
theorem claim_C7_witness :
    layerExtentQ { name := [], features := [], extent := 0, hasExtent := false } = 4096 ∧
    layerExtentField { name := [], features := [], extent := 0, hasExtent := false } = [] :=
  (claim_C7 { name := [], features := [], extent := 0, hasExtent := false }).1 rfl

/-! ## Projection helpers (mvt.go lines 403-467)

Latitudes and longitudes are modelled as real numbers; the Go float64
constants are untyped decimal constants and appear here as the same
decimal literals. -/

def gTileSize : Nat := 256

noncomputable def gMinLat : ℝ := -85.05112878

noncomputable def gMaxLat : ℝ := 85.05112878

noncomputable def gMinLon : ℝ := -180.0

noncomputable def gMaxLon : ℝ := 180.0

noncomputable def clampR (v lo hi : ℝ) : ℝ := min (max v lo) hi

/-- Go `gMapSize` (mvt.go lines 432-434): `256 << levelOfDetail`. -/
def gMapSize (levelOfDetail : Nat) : Nat := gTileSize <<< levelOfDetail

/-- Go `tileXYToPixelXY` (mvt.go lines 428-430): `tileX << 8` on Go ints is
multiplication by 256. -/
def tileXYToPixelXY (tileX tileY : Int) : Int × Int := (tileX * 256, tileY * 256)

/-- Go `pixelXYToLatLon` (mvt.go lines 436-443): inverse Web Mercator. -/
noncomputable def pixelXYToLatLon (pixelX pixelY : Int) (levelOfDetail : Nat) : ℝ × ℝ :=
  let mapSize : ℝ := (gMapSize levelOfDetail : ℝ)
  let x := clampR (pixelX : ℝ) 0 (mapSize - 1) / mapSize - 0.5
  let y := 0.5 - clampR (pixelY : ℝ) 0 (mapSize - 1) / mapSize
  (90 - 360 * Real.arctan (Real.exp (-y * 2 * Real.pi)) / Real.pi, 360 * x)

/-- Go `TileBounds` (mvt.go lines 445-467).  `size` is `int(1 << tileZ)`;
Go's `%` on ints is truncated remainder, `Int.tmod`. -/
noncomputable def TileBounds (tileX tileY : Int) (tileZ : Nat) : ℝ × ℝ × ℝ × ℝ :=
  let size : Int := 2 ^ tileZ
  let p₁ := pixelXYToLatLon (tileXYToPixelXY tileX tileY).1
    (tileXYToPixelXY tileX tileY).2 tileZ
  let p₂ := pixelXYToLatLon (tileXYToPixelXY (tileX + 1) (tileY + 1)).1
    (tileXYToPixelXY (tileX + 1) (tileY + 1)).2 tileZ
  let minLon := if size = 0 ∨ Int.tmod tileX size = 0 then gMinLon else p₁.2
  let maxLon := if size = 0 ∨ Int.tmod tileX size = size - 1 then gMaxLon else p₂.2
  let maxLat := if tileY ≤ 0 then gMaxLat else p₁.1
  let minLat := if tileY ≥ size - 1 then gMinLat else p₂.1
  (minLat, minLon, maxLat, maxLon)

/-- Claim C9: for `0 ≤ z ≤ 31` and `0 ≤ tileX, tileY < 2^z`, `TileBounds`
forces `minLon = -180` at the west edge (`tileX = 0`), `maxLon = 180` at
the east edge (`tileX = 2^z - 1`), `maxLat = 85.05112878` at `tileY = 0`
and `minLat = -85.05112878` at the last row (`tileY = 2^z - 1`); in
particular `TileBounds 0 0 0` is exactly the full world bounds. -/
theorem claim_C9 (z : Nat) (x y : Int) (_hz : z ≤ 31)
    (hx0 : 0 ≤ x) (hx1 : x < 2 ^ z) (hy0 : 0 ≤ y) (hy1 : y < 2 ^ z) :
    (x = 0 → (TileBounds x y z).2.1 = -180) ∧
    (x = 2 ^ z - 1 → (TileBounds x y z).2.2.2 = 180) ∧
    (y = 0 → (TileBounds x y z).2.2.1 = 85.05112878) ∧
    (y = 2 ^ z - 1 → (TileBounds x y z).1 = -85.05112878) ∧
    TileBounds 0 0 0 = (-85.05112878, -180, 85.05112878, 180) := by
  have hsize : (0 : Int) < 2 ^ z := by positivity
  have htm : Int.tmod x (2 ^ z) = x := by
    rw [Int.tmod_eq_emod hx0 (by omega), Int.emod_eq_of_lt hx0 hx1]
  refine ⟨?_, ?_, ?_, ?_, ?_⟩
  · intro hx
    subst hx
    simp only [TileBounds, Int.zero_tmod]
    rw [if_pos (Or.inr trivial)]
    norm_num [gMinLon]
  · intro hx
    have heast : Int.tmod x (2 ^ z) = 2 ^ z - 1 := by rw [htm, hx]
    simp only [TileBounds, heast]
    rw [if_pos (Or.inr trivial)]
    norm_num [gMaxLon]
  · intro hy
    subst hy
    simp only [TileBounds]
    rw [if_pos (le_refl (0 : Int))]
    norm_num [gMaxLat]
  · intro hy
    have hlast : y ≥ 2 ^ z - 1 := by omega
    simp only [TileBounds]
    rw [if_pos hlast]
    norm_num [gMinLat]
  · simp only [TileBounds]
    norm_num [Int.zero_tmod, gMinLat, gMinLon, gMaxLat, gMaxLon]

/-- Witness for C9 at the root tile (0, 0, 0). -/
theorem claim_C9_witness :
    TileBounds 0 0 0 = (-85.05112878, -180, 85.05112878, 180) :=
  (claim_C9 0 0 0 (by norm_num) (by norm_num) (by norm_num) (by norm_num)
    (by norm_num)).2.2.2.2

end MVT
